import Mathlib

/-!
Verification of the Proof-of-History entry subsystem: the `Entry` data model,
its hash-chain construction and verification (`src/core/src/entry.rs`), the
binary-search chunking algorithm (`num_will_fit`, `split_serializable_chunks`),
and the PoH service tick loop (`src/core/src/poh_service.rs`).
-/

/-- Abstract signature value (the first 64-byte signature of a transaction is
the only part the chain digest ever reads, so its byte content is abstracted). -/
abbrev Signature := Nat

/-- Modelled from the spec: the 256-bit `HashState` chain value together with the
sha-256 primitive used by `Poh` (`src/core/src/poh.rs`) and the incremental
`Hasher` (`solana_sdk::hash`), neither of which is among the provided sources.
Spec §4.1: `advance` re-hashes the running state, `mix(state, data)` is one hash
application over the concatenation of `state` and `data`, and the transaction
digest folds the first signatures together.  The hash is idealized as injective
(collision-free) term formation, so each kind of application is a distinct
constructor. -/
inductive Hash where
  | init : Nat → Hash
  | hashOne : Hash → Hash
  | hashMix : Hash → Hash → Hash
  | digest : List Signature → Hash
  deriving DecidableEq, Repr

/-- A transaction, as far as this subsystem reads it: its signature list and its
message content (abstracted to a byte list; `hash_transactions` ignores it). -/
structure Transaction where
  signatures : List Signature
  message : List Nat
  deriving DecidableEq, Repr

/-- The ordered first signatures of the signed transactions of a list, in list
order; unsigned transactions contribute nothing (entry.rs lines 154-163). -/
def firstSignatures (txs : List Transaction) : List Signature :=
  txs.filterMap fun tx => tx.signatures.head?

/-- entry.rs `hash_transactions`: fold the first signature of every signed
transaction, in order, through the hasher and return the digest. -/
def hash_transactions (txs : List Transaction) : Hash :=
  Hash.digest (firstSignatures txs)

/-- Modelled from the spec: `advance(state, n)` of spec §4.1, the iterated
re-hashing performed by `Poh::hash` / `Poh::tick` (`src/core/src/poh.rs`,
not among the provided sources). -/
def pohAdvance (state : Hash) : Nat → Hash
  | 0 => state
  | n + 1 => Hash.hashOne (pohAdvance state n)

/-- entry.rs `next_hash`: if `num_hashes == 0` and no transactions, return
`start_hash` verbatim; otherwise advance `num_hashes.saturating_sub(1)` times,
then either one plain tick hash (no transactions) or one mix of the
transaction digest (`Poh::record`). -/
def next_hash (startHash : Hash) (numHashes : Nat) (txs : List Transaction) : Hash :=
  if numHashes = 0 ∧ txs = [] then startHash
  else if txs = [] then Hash.hashOne (pohAdvance startHash (numHashes - 1))
  else Hash.hashMix (pohAdvance startHash (numHashes - 1)) (hash_transactions txs)

/-- entry.rs `Entry`: number of chain hashes since the previous entry, the
resulting chain hash, and the observed transactions. -/
structure Entry where
  num_hashes : Nat
  hash : Hash
  transactions : List Transaction
  deriving DecidableEq, Repr

/-- entry.rs `Entry::verify`: recompute `next_hash` from `start_hash` and the
entry's own fields and compare with the stored hash. -/
def Entry.verify (e : Entry) (startHash : Hash) : Bool :=
  decide (e.hash = next_hash startHash e.num_hashes e.transactions)

/-- entry.rs `Entry::is_tick`. -/
def Entry.is_tick (e : Entry) : Bool := e.transactions.isEmpty

/-- Modelled from the spec: bincode serialized size of one transaction
(`bincode::serialized_size`, outside the provided sources): a length prefix,
the fixed-width signatures, and the message bytes. -/
def txSerializedSize (tx : Transaction) : Nat :=
  8 + 64 * tx.signatures.length + tx.message.length

/-- Modelled from the spec: serialized size of `vec![Entry { 0, default, [] }]`,
the fixed per-entry overhead of entry.rs `serialized_to_blob_size`: vector
length prefix, `num_hashes`, 32-byte hash, empty transaction vector prefix. -/
def entrySerializedOverhead : Nat := 8 + 8 + 32 + 8

/-- Modelled from the spec: the network unit's maximum data payload
(`BLOB_DATA_SIZE` of `src/core/src/packet.rs`, not among the provided
sources).  The spec fixes no numeric value and none of the verified
properties depends on it, so a small stand-in keeps concrete examples
computable. -/
def BLOB_DATA_SIZE : Nat := 1024

/-- entry.rs `Entry::serialized_to_blob_size`: per-entry overhead plus the sum
of the transactions' serialized sizes. -/
def Entry.serialized_to_blob_size (txs : List Transaction) : Nat :=
  entrySerializedOverhead + (txs.map txSerializedSize).sum

/-- entry.rs `Entry::new`.  The leading `assert!` that the serialized
single-entry blob size fits `BLOB_DATA_SIZE` is modelled by returning `none`
(the Rust code panics).  Otherwise: the degenerate `num_hashes == 0`, empty
case keeps `prev_hash` verbatim; `num_hashes == 0` with transactions promotes
to one hash; and the general case advances `num_hashes` times. -/
def Entry.new? (prevHash : Hash) (numHashes : Nat) (txs : List Transaction) : Option Entry :=
  if Entry.serialized_to_blob_size txs ≤ BLOB_DATA_SIZE then
    some
      (if numHashes = 0 ∧ txs = [] then
        { num_hashes := 0, hash := prevHash, transactions := txs }
      else if numHashes = 0 then
        { num_hashes := 1, hash := next_hash prevHash 1 txs, transactions := txs }
      else
        { num_hashes := numHashes, hash := next_hash prevHash numHashes txs, transactions := txs })
  else none

/-- The synthetic genesis entry prepended by entry.rs `EntrySlice::verify`. -/
def genesisEntry (startHash : Hash) : Entry :=
  { num_hashes := 0, hash := startHash, transactions := [] }

/-- entry.rs `EntrySlice::verify` for `[Entry]`: zip the genesis-prepended
sequence with the sequence itself and check every adjacent pair. -/
def EntrySlice.verify (entries : List Entry) (startHash : Hash) : Bool :=
  ((genesisEntry startHash :: entries).zip entries).all fun p => p.2.verify p.1.hash

theorem pohAdvance_inj {h1 h2 : Hash} (n : Nat) (h : pohAdvance h1 n = pohAdvance h2 n) :
    h1 = h2 := by
  induction n with
  | zero => exact h
  | succ n ih => exact ih (by simpa [pohAdvance] using h)

theorem next_hash_start_inj {h1 h2 : Hash} {m : Nat} {txs : List Transaction}
    (h : next_hash h1 m txs = next_hash h2 m txs) : h1 = h2 := by
  unfold next_hash at h
  by_cases ht : txs = []
  · subst ht
    by_cases m0 : m = 0
    · simpa [m0] using h
    · simp only [m0, false_and, if_false, if_true, Hash.hashOne.injEq] at h
      exact pohAdvance_inj _ h
  · simp only [ht, and_false, if_false, Hash.hashMix.injEq] at h
    exact pohAdvance_inj _ h.1

theorem Entry.new?_spec {prevHash : Hash} {numHashes : Nat} {txs : List Transaction} {e : Entry}
    (h : Entry.new? prevHash numHashes txs = some e) :
    e.transactions = txs ∧ e.hash = next_hash prevHash e.num_hashes txs := by
  unfold Entry.new? at h
  by_cases hsz : Entry.serialized_to_blob_size txs ≤ BLOB_DATA_SIZE
  · simp only [hsz, if_true, Option.some.injEq] at h
    by_cases ht : txs = []
    · subst ht
      by_cases h0 : numHashes = 0
      · simp only [h0, and_self, if_true] at h
        subst h; simp [next_hash]
      · simp only [h0, false_and, if_false, if_true] at h
        subst h; simp
    · have h0' : ¬(numHashes = 0 ∧ txs = []) := fun hh => ht hh.2
      by_cases h0 : numHashes = 0
      · simp only [ht, and_false, if_false, h0, if_true] at h
        subst h; simp
      · simp only [ht, and_false, if_false, h0] at h
        subst h; simp
  · simp [hsz] at h

theorem Entry.new?_verify {prevHash : Hash} {numHashes : Nat} {txs : List Transaction} {e : Entry}
    (h : Entry.new? prevHash numHashes txs = some e) : e.verify prevHash = true := by
  obtain ⟨htx, hh⟩ := Entry.new?_spec h
  simp [Entry.verify, htx, hh]

/-- C7: an entry constructed by `Entry::new` from `h1` fails `verify` against
any `h2 ≠ h1` (no false positives). -/
theorem entry_verify_no_false_positives (h1 h2 : Hash) (numHashes : Nat)
    (txs : List Transaction) (e : Entry) (h : Entry.new? h1 numHashes txs = some e)
    (hne : h2 ≠ h1) : e.verify h2 = false := by
  obtain ⟨htx, hh⟩ := Entry.new?_spec h
  simp only [Entry.verify, htx, hh, decide_eq_false_iff_not]
  intro heq
  exact hne (next_hash_start_inj heq.symm)

theorem entry_verify_no_false_positives_witness :
    Entry.new? (Hash.init 0) 1 [] = some
      { num_hashes := 1, hash := Hash.hashOne (Hash.init 0), transactions := [] } ∧
    Hash.init 1 ≠ Hash.init 0 ∧
    Entry.verify { num_hashes := 1, hash := Hash.hashOne (Hash.init 0), transactions := [] }
      (Hash.init 1) = false :=
  ⟨by decide, by decide,
    entry_verify_no_false_positives (Hash.init 0) (Hash.init 1) 1 [] _ (by decide) (by decide)⟩

/-- C3: `Entry::new` at the `num_hashes == 0` boundary: with no transactions the
result is the degenerate entry keeping `prev_hash` verbatim with
`num_hashes = 0`; with transactions it is promoted to `num_hashes = 1` and the
hash is a single application mixing the transaction digest into `prev_hash`. -/
theorem entry_new_zero_num_hashes :
    (∀ prevHash : Hash,
      Entry.new? prevHash 0 [] =
        some { num_hashes := 0, hash := prevHash, transactions := [] }) ∧
    (∀ (prevHash : Hash) (txs : List Transaction) (e : Entry), txs ≠ [] →
      Entry.new? prevHash 0 txs = some e →
      e.num_hashes = 1 ∧ e.hash = Hash.hashMix prevHash (hash_transactions txs) ∧
        e.transactions = txs) := by
  constructor
  · intro prevHash
    simp [Entry.new?, Entry.serialized_to_blob_size, entrySerializedOverhead, BLOB_DATA_SIZE]
  · intro prevHash txs e ht h
    unfold Entry.new? at h
    by_cases hsz : Entry.serialized_to_blob_size txs ≤ BLOB_DATA_SIZE
    · simp only [hsz, if_true, ht, and_false, if_false, if_true, Option.some.injEq] at h
      subst h
      simp [next_hash, ht, pohAdvance]
    · simp [hsz] at h

theorem entry_new_zero_num_hashes_witness :
    (Entry.new? (Hash.init 3) 0 [] =
      some { num_hashes := 0, hash := Hash.init 3, transactions := [] }) ∧
    (([({ signatures := [5], message := [] } : Transaction)] : List Transaction) ≠ [] ∧
      Entry.new? (Hash.init 3) 0 [{ signatures := [5], message := [] }] =
        some { num_hashes := 1,
               hash := Hash.hashMix (Hash.init 3) (Hash.digest [5]),
               transactions := [{ signatures := [5], message := [] }] } ∧
      ({ num_hashes := 1, hash := Hash.hashMix (Hash.init 3) (Hash.digest [5]),
         transactions := [{ signatures := [5], message := [] }] } : Entry).num_hashes = 1) :=
  ⟨entry_new_zero_num_hashes.1 (Hash.init 3),
    by decide, by decide,
    (entry_new_zero_num_hashes.2 (Hash.init 3) [{ signatures := [5], message := [] }] _
      (by decide) (by decide)).1⟩

/-- C1: an entry built by `Entry::new` over two transactions whose first
signatures differ verifies against its predecessor hash, and the entry obtained
by swapping the two transactions (holding `num_hashes` and `hash` fixed) fails
`verify` against that same predecessor. -/
theorem entry_transaction_reorder_detected (prevHash : Hash) (numHashes : Nat)
    (tx0 tx1 : Transaction) (s0 s1 : Signature) (e : Entry)
    (h0 : tx0.signatures.head? = some s0) (h1 : tx1.signatures.head? = some s1)
    (hne : s0 ≠ s1) (h : Entry.new? prevHash numHashes [tx0, tx1] = some e) :
    e.verify prevHash = true ∧
      Entry.verify { e with transactions := [tx1, tx0] } prevHash = false := by
  refine ⟨Entry.new?_verify h, ?_⟩
  obtain ⟨htx, hh⟩ := Entry.new?_spec h
  have e1 : firstSignatures [tx0, tx1] = [s0, s1] := by simp [firstSignatures, h0, h1]
  have e2 : firstSignatures [tx1, tx0] = [s1, s0] := by simp [firstSignatures, h0, h1]
  simp only [Entry.verify, hh, decide_eq_false_iff_not]
  intro heq
  unfold next_hash at heq
  simp only [List.cons_ne_nil, and_false, if_false, if_neg, hash_transactions, e1, e2,
    Hash.hashMix.injEq, Hash.digest.injEq, List.cons.injEq] at heq
  exact hne heq.2.1

theorem entry_transaction_reorder_detected_witness :
    (({ signatures := [0], message := [] } : Transaction).signatures.head? = some 0) ∧
    (({ signatures := [1], message := [] } : Transaction).signatures.head? = some 1) ∧
    (0 : Signature) ≠ 1 ∧
    Entry.new? (Hash.init 0) 0
        [{ signatures := [0], message := [] }, { signatures := [1], message := [] }] =
      some { num_hashes := 1,
             hash := Hash.hashMix (Hash.init 0) (Hash.digest [0, 1]),
             transactions := [{ signatures := [0], message := [] },
                              { signatures := [1], message := [] }] } ∧
    Entry.verify { num_hashes := 1,
                   hash := Hash.hashMix (Hash.init 0) (Hash.digest [0, 1]),
                   transactions := [{ signatures := [0], message := [] },
                                    { signatures := [1], message := [] }] } (Hash.init 0) = true ∧
    Entry.verify { num_hashes := 1,
                   hash := Hash.hashMix (Hash.init 0) (Hash.digest [0, 1]),
                   transactions := [{ signatures := [1], message := [] },
                                    { signatures := [0], message := [] }] } (Hash.init 0) = false :=
  ⟨by decide, by decide, by decide, by decide,
    (entry_transaction_reorder_detected (Hash.init 0) 0 _ _ 0 1 _
      (by decide) (by decide) (by decide) (by decide))⟩

/-- C2 counterexample: constructing an entry from one unsigned transaction does
NOT reuse the prior chain state verbatim and does not equal the hash obtained
for an empty transaction list — `next_hash` still performs the mix step (with
the digest of an empty signature list) because it branches on the transaction
list being empty, not on whether any signature is present. -/
theorem entry_unsigned_mix_counterexample :
    (∀ tx ∈ [({ signatures := [], message := [] } : Transaction)], tx.signatures = []) ∧
    Entry.new? (Hash.init 0) 1 [{ signatures := [], message := [] }] =
      some { num_hashes := 1,
             hash := Hash.hashMix (Hash.init 0) (Hash.digest []),
             transactions := [{ signatures := [], message := [] }] } ∧
    Entry.new? (Hash.init 0) 1 [] =
      some { num_hashes := 1, hash := Hash.hashOne (Hash.init 0), transactions := [] } ∧
    Hash.hashMix (Hash.init 0) (Hash.digest []) ≠ Hash.init 0 ∧
    Hash.hashMix (Hash.init 0) (Hash.digest []) ≠ Hash.hashOne (Hash.init 0) := by
  refine ⟨by decide, by decide, by decide, by decide, by decide⟩

/-- Depth of the chain-state component of a hash term: each hash application
grows it, so a state can never equal a strict re-hash of itself. -/
def hashDepth : Hash → Nat
  | .init _ => 0
  | .hashOne h => hashDepth h + 1
  | .hashMix h _ => hashDepth h + 1
  | .digest _ => 0

theorem hashDepth_pohAdvance (h : Hash) (n : Nat) :
    hashDepth (pohAdvance h n) = hashDepth h + n := by
  induction n with
  | zero => rfl
  | succ n ih => simp [pohAdvance, hashDepth, ih]; omega

theorem firstSignatures_eq_nil {txs : List Transaction}
    (hall : ∀ tx ∈ txs, tx.signatures = []) : firstSignatures txs = [] := by
  induction txs with
  | nil => rfl
  | cons tx rest ih =>
    have h1 : tx.signatures = [] := hall tx (by simp)
    have h2 : ∀ t ∈ rest, t.signatures = [] := fun t ht => hall t (List.mem_cons_of_mem _ ht)
    have ih' := ih h2
    simp only [firstSignatures] at ih' ⊢
    simp [List.filterMap_cons, h1, ih']

/-- C2 amended: if no transaction of the list carries a signature then the
transaction digest collapses to the empty digest (`hash_transactions` mixes
nothing into the hasher), but for a non-empty list `Entry::new` still performs
the mix step with that empty digest, so the resulting hash is the mix of the
advanced prior state with the empty digest and never equals the hash of the
entry built from the empty transaction list. -/
theorem entry_unsigned_mix_amended (txs : List Transaction)
    (hall : ∀ tx ∈ txs, tx.signatures = []) :
    hash_transactions txs = hash_transactions [] ∧
    (txs ≠ [] → ∀ (prevHash : Hash) (n : Nat) (e e' : Entry),
      Entry.new? prevHash n txs = some e → Entry.new? prevHash n [] = some e' →
      e.hash = Hash.hashMix (pohAdvance prevHash (n - 1)) (hash_transactions []) ∧
        e.hash ≠ e'.hash) := by
  have hfs : firstSignatures txs = [] := firstSignatures_eq_nil hall
  have hd : hash_transactions txs = hash_transactions [] := by
    simp only [hash_transactions, hfs]; rfl
  refine ⟨hd, fun hne prevHash n e e' h h' => ?_⟩
  obtain ⟨htx, hh⟩ := Entry.new?_spec h
  obtain ⟨htx', hh'⟩ := Entry.new?_spec h'
  have hnum : e.num_hashes = if n = 0 then 1 else n := by
    unfold Entry.new? at h
    by_cases hsz : Entry.serialized_to_blob_size txs ≤ BLOB_DATA_SIZE
    · simp only [hsz, if_true, hne, and_false, if_false, Option.some.injEq] at h
      by_cases h0 : n = 0 <;> simp only [h0, if_true, if_false] at h ⊢ <;> rw [← h]
    · simp [hsz] at h
  have hehash : e.hash = Hash.hashMix (pohAdvance prevHash (n - 1)) (hash_transactions []) := by
    rw [hh, next_hash, if_neg (fun hc => hne hc.2), if_neg hne, hd, hnum]
    by_cases h0 : n = 0 <;> simp [h0]
  refine ⟨hehash, ?_⟩
  rw [hehash, hh']
  unfold next_hash
  by_cases h0 : e'.num_hashes = 0
  · simp only [h0, and_self, if_true]
    intro heq
    have hdep := congrArg hashDepth heq
    simp only [hashDepth, hashDepth_pohAdvance] at hdep
    omega
  · simp [h0]

theorem entry_unsigned_mix_amended_witness :
    (∀ tx ∈ [({ signatures := [], message := [] } : Transaction)], tx.signatures = []) ∧
    hash_transactions [({ signatures := [], message := [] } : Transaction)] =
      hash_transactions [] ∧
    ([({ signatures := [], message := [] } : Transaction)] : List Transaction) ≠ [] ∧
    Entry.new? (Hash.init 0) 2 [{ signatures := [], message := [] }] =
      some { num_hashes := 2,
             hash := Hash.hashMix (Hash.hashOne (Hash.init 0)) (Hash.digest []),
             transactions := [{ signatures := [], message := [] }] } ∧
    Entry.new? (Hash.init 0) 2 [] =
      some { num_hashes := 2,
             hash := Hash.hashOne (Hash.hashOne (Hash.init 0)), transactions := [] } ∧
    Hash.hashMix (Hash.hashOne (Hash.init 0)) (Hash.digest []) =
      Hash.hashMix (pohAdvance (Hash.init 0) (2 - 1)) (hash_transactions []) ∧
    Hash.hashMix (Hash.hashOne (Hash.init 0)) (Hash.digest []) ≠
      Hash.hashOne (Hash.hashOne (Hash.init 0)) := by
  refine ⟨by decide, (entry_unsigned_mix_amended _ (by decide)).1, by decide, by decide,
    by decide, ?_, ?_⟩
  · exact ((entry_unsigned_mix_amended [{ signatures := [], message := [] }]
      (by decide)).2 (by decide) (Hash.init 0) 2
      { num_hashes := 2,
        hash := Hash.hashMix (Hash.hashOne (Hash.init 0)) (Hash.digest []),
        transactions := [{ signatures := [], message := [] }] }
      { num_hashes := 2,
        hash := Hash.hashOne (Hash.hashOne (Hash.init 0)), transactions := [] }
      (by decide) (by decide)).1
  · exact ((entry_unsigned_mix_amended [{ signatures := [], message := [] }]
      (by decide)).2 (by decide) (Hash.init 0) 2
      { num_hashes := 2,
        hash := Hash.hashMix (Hash.hashOne (Hash.init 0)) (Hash.digest []),
        transactions := [{ signatures := [], message := [] }] }
      { num_hashes := 2,
        hash := Hash.hashOne (Hash.hashOne (Hash.init 0)), transactions := [] }
      (by decide) (by decide)).2

/-- C10 counterexample: the chain digest does depend only on the ordered first
signatures, but `verify` is NOT invariant under adding a signature-free
transaction when the list was empty: the freshly built tick entry verifies,
while the same entry with one unsigned transaction appended fails, because
`next_hash` switches from the tick path to the record/mix path on list
emptiness. -/
theorem verify_unsigned_padding_counterexample :
    firstSignatures [({ signatures := [], message := [] } : Transaction)] =
      firstSignatures [] ∧
    Entry.new? (Hash.init 0) 1 [] =
      some { num_hashes := 1, hash := Hash.hashOne (Hash.init 0), transactions := [] } ∧
    Entry.verify { num_hashes := 1, hash := Hash.hashOne (Hash.init 0), transactions := [] }
      (Hash.init 0) = true ∧
    Entry.verify
        { num_hashes := 1, hash := Hash.hashOne (Hash.init 0),
          transactions := [{ signatures := [], message := [] }] }
        (Hash.init 0) = false := by
  refine ⟨by decide, by decide, by decide, by decide⟩

/-- C10 amended: `hash_transactions` depends only on the ordered first
signatures of the signed transactions, and `verify` is unchanged by any
rewriting of the transaction list that preserves that ordered signature
sequence — altering message content or later signatures, and adding, removing
or repositioning unsigned transactions — provided the replacement list is
empty exactly when the original was (the empty/non-empty boundary switches
between the tick and the record hashing paths). -/
theorem verify_first_signatures_only_amended :
    (∀ txs1 txs2 : List Transaction, firstSignatures txs1 = firstSignatures txs2 →
      hash_transactions txs1 = hash_transactions txs2) ∧
    (∀ (e : Entry) (startHash : Hash) (txs' : List Transaction),
      firstSignatures txs' = firstSignatures e.transactions →
      (txs' = [] ↔ e.transactions = []) →
      Entry.verify { e with transactions := txs' } startHash = e.verify startHash) := by
  constructor
  · intro txs1 txs2 h
    simp [hash_transactions, h]
  · intro e startHash txs' hsig hemp
    simp only [Entry.verify]
    have hnext : next_hash startHash e.num_hashes txs' =
        next_hash startHash e.num_hashes e.transactions := by
      by_cases ht : txs' = []
      · rw [ht, hemp.mp ht]
      · have ht' : e.transactions ≠ [] := fun hh => ht (hemp.mpr hh)
        unfold next_hash
        simp only [ht, ht', and_false, if_false, hash_transactions, hsig]
    rw [hnext]

theorem verify_first_signatures_only_amended_witness :
    firstSignatures [({ signatures := [3, 4], message := [7] } : Transaction)] =
      firstSignatures [({ signatures := [3], message := [9] } : Transaction),
                       { signatures := [], message := [] }] ∧
    (([({ signatures := [3, 4], message := [7] } : Transaction)] : List Transaction) = [] ↔
      ([({ signatures := [3], message := [9] } : Transaction),
        { signatures := [], message := [] }] : List Transaction) = []) ∧
    hash_transactions [({ signatures := [3, 4], message := [7] } : Transaction)] =
      hash_transactions [({ signatures := [3], message := [9] } : Transaction),
                         { signatures := [], message := [] }] ∧
    Entry.verify { num_hashes := 1,
                   hash := Hash.hashMix (Hash.init 0) (Hash.digest [3]),
                   transactions := [{ signatures := [3, 4], message := [7] }] }
        (Hash.init 0) =
      Entry.verify { num_hashes := 1,
                     hash := Hash.hashMix (Hash.init 0) (Hash.digest [3]),
                     transactions := [{ signatures := [3], message := [9] },
                                      { signatures := [], message := [] }] } (Hash.init 0) :=
  ⟨by decide, by decide,
    verify_first_signatures_only_amended.1 _ _ (by decide),
    verify_first_signatures_only_amended.2
      { num_hashes := 1, hash := Hash.hashMix (Hash.init 0) (Hash.digest [3]),
        transactions := [{ signatures := [3], message := [9] },
                         { signatures := [], message := [] }] }
      (Hash.init 0) [{ signatures := [3, 4], message := [7] }] (by decide) (by decide)⟩

/-- Every adjacent pair `(x0, x1)` of the list satisfies `x1.verify x0.hash`. -/
def adjacentPairsVerified (l : List Entry) : Prop :=
  ∀ (i : Nat) (h : i + 1 < l.length),
    (l.get ⟨i + 1, h⟩).verify (l.get ⟨i, Nat.lt_of_succ_lt h⟩).hash = true

theorem adjacentPairsVerified_cons {a e : Entry} {t : List Entry} :
    adjacentPairsVerified (a :: e :: t) ↔
      e.verify a.hash = true ∧ adjacentPairsVerified (e :: t) := by
  constructor
  · intro h
    refine ⟨h 0 (by simp), fun i hi => ?_⟩
    exact h (i + 1) (by simpa using hi)
  · rintro ⟨h0, h⟩ i hi
    match i with
    | 0 => exact h0
    | j + 1 => exact h j (by simpa using hi)

theorem zip_all_head_hash (es : List Entry) (a b : Entry) (hab : a.hash = b.hash) :
    (((a :: es).zip es).all fun p => p.2.verify p.1.hash) =
      (((b :: es).zip es).all fun p => p.2.verify p.1.hash) := by
  match es with
  | [] => rfl
  | e :: rest => simp [List.zip_cons_cons, List.all_cons, hab]

theorem EntrySlice.verify_cons (e : Entry) (es : List Entry) (startHash : Hash) :
    EntrySlice.verify (e :: es) startHash =
      (e.verify startHash && EntrySlice.verify es e.hash) := by
  unfold EntrySlice.verify
  simp only [List.zip_cons_cons, List.all_cons]
  congr 1
  exact zip_all_head_hash es e (genesisEntry e.hash) rfl

theorem chainOk_adjacent (es : List Entry) (a : Entry) :
    (((a :: es).zip es).all fun p => p.2.verify p.1.hash) = true ↔
      adjacentPairsVerified (a :: es) := by
  induction es generalizing a with
  | nil =>
    simp only [List.zip_nil_right, List.all_nil, true_iff]
    intro i hi
    simp at hi
  | cons e rest ih =>
    rw [List.zip_cons_cons, List.all_cons, adjacentPairsVerified_cons, Bool.and_eq_true]
    exact and_congr Iff.rfl (ih e)

/-- C6: `EntrySlice::verify` returns true exactly when, after prepending the
synthetic genesis entry (`num_hashes = 0`, empty transactions, hash =
`start_hash`), every adjacent pair `(x0, x1)` satisfies `x1.verify x0.hash`;
in particular the empty sequence always verifies. -/
theorem verify_slice_pairwise (entries : List Entry) (startHash : Hash) :
    (EntrySlice.verify entries startHash = true ↔
      adjacentPairsVerified (genesisEntry startHash :: entries)) ∧
    EntrySlice.verify [] startHash = true :=
  ⟨chainOk_adjacent entries (genesisEntry startHash), rfl⟩

theorem verify_slice_pairwise_witness :
    EntrySlice.verify
        [{ num_hashes := 1, hash := Hash.hashOne (Hash.init 0), transactions := [] },
         { num_hashes := 1, hash := Hash.hashOne (Hash.hashOne (Hash.init 0)),
           transactions := [] }] (Hash.init 0) = true ∧
    adjacentPairsVerified
      (genesisEntry (Hash.init 0) ::
        [{ num_hashes := 1, hash := Hash.hashOne (Hash.init 0), transactions := [] },
         { num_hashes := 1, hash := Hash.hashOne (Hash.hashOne (Hash.init 0)),
           transactions := [] }]) ∧
    EntrySlice.verify [] (Hash.init 5) = true :=
  ⟨by decide,
    (verify_slice_pairwise
      [{ num_hashes := 1, hash := Hash.hashOne (Hash.init 0), transactions := [] },
       { num_hashes := 1, hash := Hash.hashOne (Hash.hashOne (Hash.init 0)),
         transactions := [] }] (Hash.init 0)).1.mp (by decide),
    (verify_slice_pairwise [] (Hash.init 5)).2⟩

/-- entry.rs `num_will_fit` main loop, carrying the loop variables `lower`,
`num`, `upper` (the Rust loop's invariants `1 ≤ lower ≤ num ≤ upper` hold on
entry and are preserved; they are threaded as proof arguments so that
termination of the binary search can be established). -/
def numWillFitLoop (fits : Nat → Bool) (lower num upper : Nat)
    (hl : 1 ≤ lower) (hln : lower ≤ num) (hnu : num ≤ upper) : Nat :=
  if fits num then
    if (upper + num) / 2 = num then num
    else numWillFitLoop fits num ((upper + num) / 2) upper (hl.trans hln)
      (by omega) (by omega)
  else
    if num = 1 then 0
    else
      if (lower + num) / 2 = num then num
      else numWillFitLoop fits lower ((lower + num) / 2) num hl (by omega) (by omega)
termination_by (upper - lower, if num = lower ∨ num = upper then 1 else 0, num - lower)
decreasing_by
  all_goals simp only [Prod.lex_def]
  all_goals split_ifs <;> omega

/-- entry.rs `num_will_fit`: 0 for an empty input, otherwise run the binary
search with `num = upper = len` and `lower = 1`, probing whether the
serialized size of each prefix fits `max_size`. -/
def num_will_fit {T : Type} (serializables : List T) (maxSize : Nat)
    (sz : List T → Nat) : Nat :=
  if h : serializables.length = 0 then 0
  else
    numWillFitLoop (fun n => decide (sz (serializables.take n) ≤ maxSize))
      1 serializables.length serializables.length (le_refl 1) (by omega) (le_refl _)

/-- entry.rs `split_serializable_chunks` loop: repeatedly take the largest
fitting prefix of the remaining items and convert it.  When `num_will_fit`
returns 0 (an item that never fits), the Rust loop never advances
`chunk_start` and loops forever; that divergence is modelled as `none`. -/
def splitChunksGo {T R : Type} (maxSize : Nat) (sz : List T → Nat)
    (conv : List T → R) (s : List T) : Option (List R) :=
  if _hs : s.length = 0 then some []
  else
    if _hn : num_will_fit s maxSize sz = 0 then none
    else
      (splitChunksGo maxSize sz conv (s.drop (num_will_fit s maxSize sz))).map
        fun cs => conv (s.take (num_will_fit s maxSize sz)) :: cs
termination_by s.length
decreasing_by
  simp only [List.length_drop]
  omega

/-- entry.rs `split_serializable_chunks`. -/
def split_serializable_chunks {T R : Type} (serializables : List T) (maxSize : Nat)
    (sz : List T → Nat) (conv : List T → R) : Option (List R) :=
  splitChunksGo maxSize sz conv serializables

theorem numWillFitLoop_pos (fits : Nat → Bool) (h1 : fits 1 = true) :
    ∀ (lower num upper : Nat) (hl : 1 ≤ lower) (hln : lower ≤ num) (hnu : num ≤ upper),
      1 ≤ numWillFitLoop fits lower num upper hl hln hnu := by
  refine numWillFitLoop.induct fits
    (fun lower num upper hl hln hnu =>
      1 ≤ numWillFitLoop fits lower num upper hl hln hnu) ?_ ?_ ?_ ?_ ?_
  · intro lower num upper hl hln hnu hf hnext
    unfold numWillFitLoop
    rw [if_pos hf, if_pos hnext]
    omega
  · intro lower num upper hl hln hnu hf hnext ih
    unfold numWillFitLoop
    rw [if_pos hf, if_neg hnext]
    exact ih
  · intro lower upper hl hln hnu hf
    exact absurd h1 hf
  · intro lower num upper hl hln hnu hf hne hnext
    unfold numWillFitLoop
    rw [if_neg hf, if_neg hne, if_pos hnext]
    omega
  · intro lower num upper hl hln hnu hf hne hnext ih
    unfold numWillFitLoop
    rw [if_neg hf, if_neg hne, if_neg hnext]
    exact ih

theorem numWillFitLoop_zero (fits : Nat → Bool) (hall : ∀ m, 1 ≤ m → fits m = false) :
    ∀ (lower num upper : Nat) (hl : 1 ≤ lower) (hln : lower ≤ num) (hnu : num ≤ upper),
      lower = 1 → numWillFitLoop fits lower num upper hl hln hnu = 0 := by
  refine numWillFitLoop.induct fits
    (fun lower num upper hl hln hnu =>
      lower = 1 → numWillFitLoop fits lower num upper hl hln hnu = 0) ?_ ?_ ?_ ?_ ?_
  · intro lower num upper hl hln hnu hf hnext hlow
    rw [hall num (by omega)] at hf
    exact absurd hf (by simp)
  · intro lower num upper hl hln hnu hf hnext ih hlow
    rw [hall num (by omega)] at hf
    exact absurd hf (by simp)
  · intro lower upper hl hln hnu hf hlow
    unfold numWillFitLoop
    rw [if_neg hf, if_pos rfl]
  · intro lower num upper hl hln hnu hf hne hnext hlow
    omega
  · intro lower num upper hl hln hnu hf hne hnext ih hlow
    unfold numWillFitLoop
    rw [if_neg hf, if_neg hne, if_neg hnext]
    exact ih hlow

theorem numWillFitLoop_cutoff (fits : Nat → Bool) (k : Nat)
    (hiff : ∀ m, 1 ≤ m → (fits m = true ↔ m ≤ k)) :
    ∀ (lower num upper : Nat) (hl : 1 ≤ lower) (hln : lower ≤ num) (hnu : num ≤ upper),
      fits lower = true → fits upper = false →
      numWillFitLoop fits lower num upper hl hln hnu = k := by
  refine numWillFitLoop.induct fits
    (fun lower num upper hl hln hnu =>
      fits lower = true → fits upper = false →
        numWillFitLoop fits lower num upper hl hln hnu = k) ?_ ?_ ?_ ?_ ?_
  · intro lower num upper hl hln hnu hf hnext hfl hfu
    unfold numWillFitLoop
    rw [if_pos hf, if_pos hnext]
    have hnk : num ≤ k := (hiff num (by omega)).mp hf
    have huk : ¬ upper ≤ k := fun hk => by
      rw [(hiff upper (by omega)).mpr hk] at hfu
      exact absurd hfu (by simp)
    omega
  · intro lower num upper hl hln hnu hf hnext ih hfl hfu
    unfold numWillFitLoop
    rw [if_pos hf, if_neg hnext]
    exact ih hf hfu
  · intro lower upper hl hln hnu hf hfl hfu
    have hl1 : lower = 1 := by omega
    rw [hl1] at hfl
    exact absurd hfl hf
  · intro lower num upper hl hln hnu hf hne hnext hfl hfu
    have hle : lower = num := by omega
    rw [hle] at hfl
    exact absurd hfl hf
  · intro lower num upper hl hln hnu hf hne hnext ih hfl hfu
    unfold numWillFitLoop
    rw [if_neg hf, if_neg hne, if_neg hnext]
    refine ih hfl ?_
    revert hf
    cases fits num <;> simp

theorem num_will_fit_nil {T : Type} (maxSize : Nat) (sz : List T → Nat) :
    num_will_fit ([] : List T) maxSize sz = 0 := by
  simp [num_will_fit]

theorem num_will_fit_first_too_big {T : Type} (s : List T) (maxSize : Nat) (sz : List T → Nat)
    (hmono : ∀ i j, i ≤ j → sz (s.take i) ≤ sz (s.take j))
    (hne : s ≠ []) (hbig : maxSize < sz (s.take 1)) :
    num_will_fit s maxSize sz = 0 := by
  unfold num_will_fit
  rw [dif_neg (fun hz => hne (List.eq_nil_of_length_eq_zero hz))]
  refine numWillFitLoop_zero _ ?_ 1 s.length s.length _ _ _ rfl
  intro mm hmm
  have : maxSize < sz (s.take mm) := lt_of_lt_of_le hbig (hmono 1 mm hmm)
  simp [this]

theorem num_will_fit_all_fit {T : Type} (s : List T) (maxSize : Nat) (sz : List T → Nat)
    (hfit : sz s ≤ maxSize) : num_will_fit s maxSize sz = s.length := by
  unfold num_will_fit
  by_cases hz : s.length = 0
  · rw [dif_pos hz]; omega
  · rw [dif_neg hz]
    unfold numWillFitLoop
    rw [if_pos (by simp [List.take_length, hfit]), if_pos (by omega)]

theorem num_will_fit_sharp {T : Type} (s : List T) (maxSize : Nat) (sz : List T → Nat)
    (hmono : ∀ i j, i ≤ j → sz (s.take i) ≤ sz (s.take j)) (k : Nat)
    (hk1 : 1 ≤ k) (hklen : k < s.length)
    (hfitk : sz (s.take k) ≤ maxSize) (hbig : maxSize < sz (s.take (k + 1))) :
    num_will_fit s maxSize sz = k := by
  unfold num_will_fit
  rw [dif_neg (by omega)]
  refine numWillFitLoop_cutoff _ k ?_ 1 s.length s.length _ _ _ ?_ ?_
  · intro mm hmm
    simp only [decide_eq_true_eq]
    constructor
    · intro hfit
      by_contra hgt
      have h1 : k + 1 ≤ mm := by omega
      have := hmono (k + 1) mm h1
      omega
    · intro hle
      exact le_trans (hmono mm k hle) hfitk
  · have := hmono 1 k hk1
    simp only [decide_eq_true_eq]
    omega
  · have h1 : k + 1 ≤ s.length := by omega
    have := hmono (k + 1) s.length h1
    simp only [decide_eq_false_iff_not, not_le]
    omega

/-- C5 counterexample: the claim that `num_will_fit` returns 0 whenever the
first single item exceeds the limit fails for a non-monotone size function:
here the singleton prefix measures 99 > 10, yet the full two-item prefix
measures 0, fits, and the binary search immediately returns the full length 2
without ever probing the singleton. -/
theorem num_will_fit_first_item_counterexample :
    10 < (fun l : List Nat => if l.length = 1 then 99 else 0) ([0, 0].take 1) ∧
    num_will_fit [0, 0] 10 (fun l : List Nat => if l.length = 1 then 99 else 0) = 2 := by
  constructor
  · norm_num
  · unfold num_will_fit
    rw [dif_neg (by norm_num)]
    unfold numWillFitLoop
    norm_num

/-- C5 amended: boundary cases of `num_will_fit`: an empty input returns 0;
for a monotone size function, if even the first single item exceeds the limit
it returns 0; for a monotone size function under which the whole sequence fits
it returns the full length; and for a monotone size function with a sharp
cutoff at item `k` (prefixes of length at most `k` fit, longer prefixes do
not) it returns exactly `k`.  (Monotonicity, already assumed by the claim's
last two cases, is also required for the single-item case: the
counterexample shows it fails for a non-monotone size function.) -/
theorem num_will_fit_boundary_amended :
    (∀ (T : Type) (maxSize : Nat) (sz : List T → Nat),
      num_will_fit ([] : List T) maxSize sz = 0) ∧
    (∀ (T : Type) (s : List T) (maxSize : Nat) (sz : List T → Nat),
      (∀ i j, i ≤ j → sz (s.take i) ≤ sz (s.take j)) → s ≠ [] →
      maxSize < sz (s.take 1) → num_will_fit s maxSize sz = 0) ∧
    (∀ (T : Type) (s : List T) (maxSize : Nat) (sz : List T → Nat),
      (∀ i j, i ≤ j → sz (s.take i) ≤ sz (s.take j)) → sz s ≤ maxSize →
      num_will_fit s maxSize sz = s.length) ∧
    (∀ (T : Type) (s : List T) (maxSize : Nat) (sz : List T → Nat) (k : Nat),
      (∀ i j, i ≤ j → sz (s.take i) ≤ sz (s.take j)) → 1 ≤ k → k < s.length →
      sz (s.take k) ≤ maxSize → maxSize < sz (s.take (k + 1)) →
      num_will_fit s maxSize sz = k) :=
  ⟨fun _ maxSize sz => num_will_fit_nil maxSize sz,
   fun _ s maxSize sz hmono hne hbig => num_will_fit_first_too_big s maxSize sz hmono hne hbig,
   fun _ s maxSize sz _hmono hfit => num_will_fit_all_fit s maxSize sz hfit,
   fun _ s maxSize sz k hmono hk1 hklen hfitk hbig =>
     num_will_fit_sharp s maxSize sz hmono k hk1 hklen hfitk hbig⟩

theorem num_will_fit_boundary_amended_witness :
    num_will_fit ([] : List Nat) 5 List.length = 0 ∧
    ((∀ i j, i ≤ j → ([7].take i).length ≤ ([7].take j).length) ∧
      ([7] : List Nat) ≠ [] ∧ 0 < List.length ([7].take 1) ∧
      num_will_fit [7] 0 List.length = 0) ∧
    (List.length [1, 2, 3] ≤ 9 ∧ num_will_fit [1, 2, 3] 9 List.length = 3) ∧
    (1 ≤ 2 ∧ 2 < List.length [5, 6, 7, 8] ∧ List.length ([5, 6, 7, 8].take 2) ≤ 2 ∧
      2 < List.length ([5, 6, 7, 8].take 3) ∧
      num_will_fit [5, 6, 7, 8] 2 List.length = 2) :=
  ⟨num_will_fit_boundary_amended.1 Nat 5 List.length,
   ⟨fun i j hij => by simp only [List.length_take]; omega,
    by decide, by decide,
    num_will_fit_boundary_amended.2.1 Nat [7] 0 List.length
      (fun i j hij => by simp only [List.length_take]; omega) (by decide) (by decide)⟩,
   ⟨by decide,
    num_will_fit_boundary_amended.2.2.1 Nat [1, 2, 3] 9 List.length
      (fun i j hij => by simp only [List.length_take]; omega) (by decide)⟩,
   ⟨by decide, by decide, by decide, by decide,
    num_will_fit_boundary_amended.2.2.2 Nat [5, 6, 7, 8] 2 List.length 2
      (fun i j hij => by simp only [List.length_take]; omega)
      (by decide) (by decide) (by decide) (by decide)⟩⟩

theorem num_will_fit_pos {T : Type} (s : List T) (maxSize : Nat) (sz : List T → Nat)
    (hne : s ≠ []) (h1 : sz (s.take 1) ≤ maxSize) : 1 ≤ num_will_fit s maxSize sz := by
  unfold num_will_fit
  rw [dif_neg (fun hz => hne (List.eq_nil_of_length_eq_zero hz))]
  exact numWillFitLoop_pos _ (by simp [h1]) 1 s.length s.length _ _ _

theorem splitChunksGo_join {T : Type} (maxSize : Nat) (sz : List T → Nat) :
    ∀ s : List T, (∀ x ∈ s, sz [x] ≤ maxSize) →
      ∃ cs : List (List T),
        splitChunksGo maxSize sz (fun c => c) s = some cs ∧ cs.flatten = s := by
  refine splitChunksGo.induct maxSize sz (fun c => c)
    (fun s => (∀ x ∈ s, sz [x] ≤ maxSize) →
      ∃ cs : List (List T),
        splitChunksGo maxSize sz (fun c => c) s = some cs ∧ cs.flatten = s)
    ?_ ?_ ?_
  · intro s hlen _hall
    refine ⟨[], ?_, ?_⟩
    · unfold splitChunksGo
      rw [dif_pos hlen]
    · simp [List.eq_nil_of_length_eq_zero hlen]
  · intro s hlen hzero hall
    exfalso
    have hne : s ≠ [] := fun h => hlen (by simp [h])
    obtain ⟨a, t, rfl⟩ : ∃ a t, s = a :: t := by
      cases s with
      | nil => exact absurd rfl hne
      | cons a t => exact ⟨a, t, rfl⟩
    have h1 : sz ((a :: t).take 1) ≤ maxSize := hall a (by simp)
    have := num_will_fit_pos (a :: t) maxSize sz hne h1
    omega
  · intro s hlen hzero ih hall
    obtain ⟨cs, hcs, hjoin⟩ := ih (fun x hx => hall x (List.drop_subset _ _ hx))
    refine ⟨s.take (num_will_fit s maxSize sz) :: cs, ?_, ?_⟩
    · unfold splitChunksGo
      rw [dif_neg hlen, dif_neg hzero, hcs]
      rfl
    · rw [List.flatten_cons, hjoin, List.take_append_drop]

/-- C4: for a non-empty sequence in which every single item individually fits
the size limit, `split_serializable_chunks` terminates (returns a result
rather than looping) and, taking the identity as converter, concatenating the
chunks in order exactly reconstructs the original sequence — no item is
split, dropped, or duplicated. -/
theorem split_chunks_round_trip (T : Type) (s : List T) (maxSize : Nat)
    (sz : List T → Nat) (_hne : s ≠ []) (hall : ∀ x ∈ s, sz [x] ≤ maxSize) :
    ∃ cs : List (List T),
      split_serializable_chunks s maxSize sz (fun c => c) = some cs ∧ cs.flatten = s :=
  splitChunksGo_join maxSize sz s hall

theorem split_chunks_round_trip_witness :
    ([1, 2, 3] : List Nat) ≠ [] ∧
    (∀ x ∈ ([1, 2, 3] : List Nat), List.length [x] ≤ 2) ∧
    ∃ cs : List (List Nat),
      split_serializable_chunks [1, 2, 3] 2 List.length (fun c => c) = some cs ∧
        cs.flatten = [1, 2, 3] :=
  ⟨by decide, by decide,
    split_chunks_round_trip Nat [1, 2, 3] 2 List.length (by decide) (by decide)⟩

/-- C8: `Entry::new` refuses construction (the `assert!`, modelled as `none`)
exactly for transaction lists whose serialized single-entry blob size (fixed
per-entry overhead plus the transactions' serialized sizes) exceeds
`BLOB_DATA_SIZE`; every list within the limit constructs an entry. -/
theorem entry_new_size_guard (prevHash : Hash) (numHashes : Nat) (txs : List Transaction) :
    (Entry.serialized_to_blob_size txs ≤ BLOB_DATA_SIZE →
      ∃ e, Entry.new? prevHash numHashes txs = some e) ∧
    (BLOB_DATA_SIZE < Entry.serialized_to_blob_size txs →
      Entry.new? prevHash numHashes txs = none) := by
  constructor
  · intro hle
    unfold Entry.new?
    rw [if_pos hle]
    exact ⟨_, rfl⟩
  · intro hgt
    unfold Entry.new?
    rw [if_neg (by omega)]

theorem entry_new_size_guard_witness :
    (Entry.serialized_to_blob_size [] ≤ BLOB_DATA_SIZE ∧
      ∃ e, Entry.new? (Hash.init 0) 3 [] = some e) ∧
    (BLOB_DATA_SIZE <
        Entry.serialized_to_blob_size
          [{ signatures := [], message := List.replicate (BLOB_DATA_SIZE + 1) 0 }] ∧
      Entry.new? (Hash.init 0) 3
          [{ signatures := [], message := List.replicate (BLOB_DATA_SIZE + 1) 0 }] =
        none) := by
  have hbig : BLOB_DATA_SIZE <
      Entry.serialized_to_blob_size
        [{ signatures := [], message := List.replicate (BLOB_DATA_SIZE + 1) 0 }] := by
    simp only [Entry.serialized_to_blob_size, List.map_cons, List.map_nil, List.sum_cons,
      List.sum_nil, txSerializedSize, List.length_nil, List.length_replicate]
    omega
  exact ⟨⟨by decide, (entry_new_size_guard (Hash.init 0) 3 []).1 (by decide)⟩,
    ⟨hbig, (entry_new_size_guard (Hash.init 0) 3 _).2 hbig⟩⟩

/-- poh_service.rs `NUM_HASHES_PER_BATCH`. -/
def NUM_HASHES_PER_BATCH : Nat := 128

/-- Observable actions of one `PohService::tick_producer` loop iteration on
the recorder: a batched `hash` call, the wall-clock sleep of the zero-rate
mode, or the closing `tick` call. -/
inductive PohEvent where
  | hashBatch : Nat → PohEvent
  | sleep : PohEvent
  | tick : PohEvent
  deriving DecidableEq, Repr

/-- The batch sizes issued by the inner `while num_hashes != 0` loop of
poh_service.rs `tick_producer`: each batch is `min(num_hashes,
NUM_HASHES_PER_BATCH)` and is subtracted from the remaining count. -/
def hashBatches (n : Nat) : List Nat :=
  if n = 0 then []
  else min n NUM_HASHES_PER_BATCH :: hashBatches (n - min n NUM_HASHES_PER_BATCH)
termination_by n
decreasing_by
  simp only [NUM_HASHES_PER_BATCH]
  omega

/-- One iteration of the poh_service.rs `tick_producer` loop, as the sequence
of recorder events it produces: with `hashes_per_tick == 0` it only sleeps
for the tick duration and then ticks; otherwise it issues the hash batches
for `hashes_per_tick - 1` hashes and then ticks. -/
def tick_producer_iteration (hashesPerTick : Nat) : List PohEvent :=
  if hashesPerTick = 0 then [PohEvent.sleep, PohEvent.tick]
  else (hashBatches (hashesPerTick - 1)).map PohEvent.hashBatch ++ [PohEvent.tick]

theorem hashBatches_bounded (n : Nat) :
    ∀ b ∈ hashBatches n, 1 ≤ b ∧ b ≤ NUM_HASHES_PER_BATCH := by
  refine hashBatches.induct (fun n => ∀ b ∈ hashBatches n, 1 ≤ b ∧ b ≤ NUM_HASHES_PER_BATCH)
    ?_ ?_ n
  · intro b hb
    rw [hashBatches, if_pos rfl] at hb
    simp at hb
  · intro x hz ih b hb
    rw [hashBatches, if_neg hz] at hb
    rcases List.mem_cons.mp hb with h | h
    · subst h
      constructor
      · simp only [NUM_HASHES_PER_BATCH]
        omega
      · exact min_le_right _ _
    · exact ih b h

theorem hashBatches_sum (n : Nat) : (hashBatches n).sum = n := by
  refine hashBatches.induct (fun n => (hashBatches n).sum = n) ?_ ?_ n
  · show (hashBatches 0).sum = 0
    rw [hashBatches, if_pos rfl, List.sum_nil]
  · intro x hz ih
    rw [hashBatches, if_neg hz, List.sum_cons, ih]
    omega

/-- C9: one iteration of the `tick_producer` service loop: with
`hashes_per_tick = 0` it issues no recorder hash calls, only the configured
sleep followed by a single `tick`; otherwise it issues hash batches of size
at most `NUM_HASHES_PER_BATCH` (which equals 128) summing to exactly
`hashes_per_tick - 1`, followed by exactly one `tick`. -/
theorem tick_producer_iteration_spec (hashesPerTick : Nat) :
    NUM_HASHES_PER_BATCH = 128 ∧
    (hashesPerTick = 0 →
      tick_producer_iteration hashesPerTick = [PohEvent.sleep, PohEvent.tick]) ∧
    (hashesPerTick ≠ 0 →
      ∃ bs : List Nat,
        tick_producer_iteration hashesPerTick = bs.map PohEvent.hashBatch ++ [PohEvent.tick] ∧
        (∀ b ∈ bs, 1 ≤ b ∧ b ≤ NUM_HASHES_PER_BATCH) ∧
        bs.sum = hashesPerTick - 1) := by
  refine ⟨rfl, ?_, ?_⟩
  · intro h0
    rw [tick_producer_iteration, if_pos h0]
  · intro hne
    refine ⟨hashBatches (hashesPerTick - 1), ?_, hashBatches_bounded _, hashBatches_sum _⟩
    rw [tick_producer_iteration, if_neg hne]

theorem tick_producer_iteration_spec_witness :
    ((0 : Nat) = 0 ∧ tick_producer_iteration 0 = [PohEvent.sleep, PohEvent.tick]) ∧
    ((257 : Nat) ≠ 0 ∧
      ∃ bs : List Nat,
        tick_producer_iteration 257 = bs.map PohEvent.hashBatch ++ [PohEvent.tick] ∧
        (∀ b ∈ bs, 1 ≤ b ∧ b ≤ NUM_HASHES_PER_BATCH) ∧
        bs.sum = 257 - 1) :=
  ⟨⟨rfl, (tick_producer_iteration_spec 0).2.1 rfl⟩,
   ⟨by decide, (tick_producer_iteration_spec 257).2.2 (by decide)⟩⟩
